import Mathlib

/-!
Verification of the note-sharing application's client-side upload pipeline
and note repository, as a shallow embedding of the TypeScript sources.

A file (JS `File`/`Blob`) is modelled as its byte sequence, a `List Nat`;
`blob.slice(start, end)` is `blobSlice`.  The chunk splitter
`createFileChunks` (src/lib/chunkUploader.ts) is a `while` loop advancing a
`start` cursor; it is embedded with explicit fuel (`chunksLoop`), with a
separate step-iteration model (`chunkStep`) used to settle termination.
Effectful operations (Supabase storage and table calls) are embedded as
pure functions over oracle arguments describing each external call's
outcome, returning the list of attempted actions and the resulting state.
-/

/-- A byte blob: the sequence of byte values of a JS `File`/`Blob`. -/
abbrev Blob := List Nat

/-- JS `blob.slice(start, end)`: the bytes from `start` (inclusive) to
`end` (exclusive), clamped to the blob's length. -/
def blobSlice (file : Blob) (start e : Nat) : Blob :=
  (file.drop start).take (e - start)

/-- `MAX_CHUNK_SIZE` from src/lib/chunkUploader.ts: 45MB in bytes. -/
def MAX_CHUNK_SIZE : Nat := 45 * 1024 * 1024

/-- `MAX_PARALLEL_UPLOADS` from src/lib/chunkUploader.ts. -/
def MAX_PARALLEL_UPLOADS : Nat := 3

/-- The body of `createFileChunks`' `while (start < file.size)` loop,
with explicit fuel.  Each iteration slices `[start, min (start +
maxChunkSize) file.size)` and moves `start` to the slice's end. -/
def chunksLoop (file : Blob) (maxChunkSize : Nat) : Nat → Nat → List Blob
  | _, 0 => []
  | start, fuel + 1 =>
    if start < file.length then
      let e := min (start + maxChunkSize) file.length
      blobSlice file start e :: chunksLoop file maxChunkSize e fuel
    else []

/-- `createFileChunks` from src/lib/chunkUploader.ts: splits a file into
chunks of at most `maxChunkSize` bytes.  Fuel `file.length` suffices for
any positive chunk size, because the cursor strictly increases. -/
def createFileChunks (file : Blob) (maxChunkSize : Nat := MAX_CHUNK_SIZE) : List Blob :=
  chunksLoop file maxChunkSize 0 file.length

/-- One step of the `createFileChunks` loop cursor:
`start = Math.min(start + maxChunkSize, file.size)`, over the integers so
that non-positive chunk sizes are covered as well. -/
def chunkStep (size maxChunkSize start : Int) : Int :=
  min (start + maxChunkSize) size

/-- The `createFileChunks` loop has exited after `n` iterations: the
cursor, starting at `0`, has reached `file.size`. -/
def chunkLoopDone (size maxChunkSize : Int) (n : Nat) : Prop :=
  ¬ ((chunkStep size maxChunkSize)^[n] 0 < size)

/-- The `createFileChunks` loop terminates: some number of iterations
brings the cursor to the loop exit condition. -/
def chunkLoopTerminates (size maxChunkSize : Int) : Prop :=
  ∃ n, chunkLoopDone size maxChunkSize n

lemma chunksLoop_get? (file : Blob) (C : Nat) (hC : 0 < C) :
    ∀ fuel s i, file.length ≤ s + fuel →
      (chunksLoop file C s fuel).get? i =
        if s + i * C < file.length then
          some (blobSlice file (s + i * C) (min (s + i * C + C) file.length))
        else none := by
  intro fuel
  induction fuel with
  | zero =>
    intro s i hle
    simp only [chunksLoop, List.get?_nil]
    rw [if_neg]
    omega
  | succ fuel ih =>
    intro s i hle
    by_cases hs : s < file.length
    · simp only [chunksLoop, if_pos hs]
      cases i with
      | zero =>
        simp only [List.get?_cons_zero, Nat.zero_mul, Nat.add_zero]
        rw [if_pos hs]
      | succ i =>
        simp only [List.get?_cons_succ]
        rw [ih (min (s + C) file.length) i (by omega)]
        by_cases hsc : s + C ≤ file.length
        · have hmin : min (s + C) file.length = s + C := by omega
          rw [hmin]
          have harith : s + C + i * C = s + (i + 1) * C := by ring
          rw [harith]
        · have hmin : min (s + C) file.length = file.length := by omega
          rw [hmin]
          rw [if_neg (by omega), if_neg (by nlinarith)]
    · simp only [chunksLoop, if_neg hs, List.get?_nil]
      rw [if_neg (by nlinarith [Nat.zero_le (i * C)])]

lemma createFileChunks_get? (file : Blob) (C : Nat) (hC : 0 < C) (i : Nat) :
    (createFileChunks file C).get? i =
      if i * C < file.length then
        some (blobSlice file (i * C) (min (i * C + C) file.length))
      else none := by
  have h := chunksLoop_get? file C hC file.length 0 i (by omega)
  simpa using h

lemma createFileChunks_get?_eq_none_iff (file : Blob) (C : Nat) (hC : 0 < C) (i : Nat) :
    (createFileChunks file C).get? i = none ↔ file.length ≤ i * C := by
  rw [createFileChunks_get? file C hC i]
  by_cases h : i * C < file.length
  · simp [if_pos h]; omega
  · simp [if_neg h]; omega

lemma createFileChunks_length (file : Blob) (C : Nat) (hC : 0 < C) :
    (createFileChunks file C).length = (file.length + C - 1) / C := by
  set L := file.length with hL
  have hceil_mul : L ≤ ((L + C - 1) / C) * C := by
    rcases Nat.eq_zero_or_pos L with h0 | hpos
    · omega
    · have h1 : (L + C - 1) / C = (L - 1) / C + 1 := by
        have : L + C - 1 = (L - 1) + C := by omega
        rw [this, Nat.add_div_right _ hC]
      rw [h1]
      have h2 : L - 1 < ((L - 1) / C + 1) * C := by
        have hdm := Nat.div_add_mod (L - 1) C
        have hmlt : (L - 1) % C < C := Nat.mod_lt _ hC
        nlinarith
      omega
  have hnone : (createFileChunks file C).get? ((L + C - 1) / C) = none := by
    rw [createFileChunks_get?_eq_none_iff file C hC]
    exact hceil_mul
  have hlen_le : (createFileChunks file C).length ≤ (L + C - 1) / C :=
    List.get?_eq_none.mp hnone
  rcases Nat.eq_zero_or_pos L with h0 | hpos
  · have : (L + C - 1) / C = 0 := by
      rw [h0]
      exact Nat.div_eq_of_lt (by omega)
    omega
  · have hlast : ((L + C - 1) / C - 1) * C < L := by
      by_contra hcon
      push_neg at hcon
      have hq : 0 < (L + C - 1) / C := Nat.div_pos (by omega) hC
      have h3 : (L + C - 1) / C ≤ (((L + C - 1) / C - 1) * C + C - 1) / C :=
        Nat.div_le_div_right (by omega)
      have h4 : (((L + C - 1) / C - 1) * C + C - 1) / C = (L + C - 1) / C - 1 := by
        have he : ((L + C - 1) / C - 1) * C + C - 1 =
            C * ((L + C - 1) / C - 1) + (C - 1) := by
          rw [Nat.mul_comm]
          omega
        rw [he, Nat.mul_add_div hC]
        have hz : (C - 1) / C = 0 := Nat.div_eq_of_lt (by omega)
        omega
      omega
    have hsome : (createFileChunks file C).get? ((L + C - 1) / C - 1) ≠ none := by
      intro hnone2
      rw [createFileChunks_get?_eq_none_iff file C hC] at hnone2
      omega
    have hlt : (L + C - 1) / C - 1 < (createFileChunks file C).length := by
      by_contra hcon
      push_neg at hcon
      exact hsome (List.get?_eq_none.mpr hcon)
    omega

lemma chunksLoop_flatten (file : Blob) (C : Nat) (hC : 0 < C) :
    ∀ fuel s, file.length ≤ s + fuel →
      (chunksLoop file C s fuel).flatten = file.drop s := by
  intro fuel
  induction fuel with
  | zero =>
    intro s hle
    rw [List.drop_eq_nil_of_le (by omega)]
    rfl
  | succ fuel ih =>
    intro s hle
    by_cases hs : s < file.length
    · simp only [chunksLoop, if_pos hs, List.flatten_cons]
      rw [ih (min (s + C) file.length) (by omega)]
      set e := min (s + C) file.length with he
      have hdrop : file.drop e = (file.drop s).drop (e - s) := by
        rw [List.drop_drop]
        congr 1
        omega
      rw [hdrop]
      unfold blobSlice
      exact List.take_append_drop _ _
    · simp only [chunksLoop, if_neg hs]
      rw [List.drop_eq_nil_of_le (by omega)]
      rfl

lemma createFileChunks_chunk_length (file : Blob) (C : Nat) (hC : 0 < C)
    (i : Nat) (ch : Blob) (h : (createFileChunks file C).get? i = some ch) :
    ch.length = min C (file.length - i * C) := by
  rw [createFileChunks_get? file C hC i] at h
  by_cases hcond : i * C < file.length
  · rw [if_pos hcond] at h
    have hch : ch = blobSlice file (i * C) (min (i * C + C) file.length) :=
      (Option.some.injEq _ _).mp h.symm
    subst hch
    unfold blobSlice
    rw [List.length_take, List.length_drop]
    omega
  · rw [if_neg hcond] at h
    exact absurd h (by simp)

lemma last_chunk_size (L C i : Nat) (hC : 0 < C) (h1 : i * C < L) (h2 : L ≤ i * C + C) :
    L - i * C = if L % C = 0 then C else L % C := by
  have hdm : C * (L / C) + L % C = L := Nat.div_add_mod L C
  have hmlt : L % C < C := Nat.mod_lt _ hC
  set q := L / C with hq
  set r := L % C with hr
  have hcomm : C * i = i * C := Nat.mul_comm C i
  by_cases hr0 : r = 0
  · have hiq : i < q := by
      by_contra hcon
      push_neg at hcon
      have hm : C * q ≤ C * i := Nat.mul_le_mul (le_refl C) hcon
      omega
    have hqi : q ≤ i + 1 := by
      by_contra hcon
      push_neg at hcon
      have hm : C * (i + 2) ≤ C * q := Nat.mul_le_mul (le_refl C) (by omega)
      have hexp : C * (i + 2) = i * C + C + C := by ring
      omega
    have hqe : q = i + 1 := by omega
    rw [if_pos hr0]
    have hL2 : L = i * C + C := by
      rw [← hdm, hqe]
      have : C * (i + 1) = i * C + C := by ring
      omega
    omega
  · have hiq : i ≤ q := by
      by_contra hcon
      push_neg at hcon
      have hm : C * (q + 1) ≤ C * i := Nat.mul_le_mul (le_refl C) hcon
      have hexp : C * (q + 1) = C * q + C := by ring
      omega
    have hqi : q ≤ i := by
      by_contra hcon
      push_neg at hcon
      have hm : C * (i + 1) ≤ C * q := Nat.mul_le_mul (le_refl C) hcon
      have hexp : C * (i + 1) = i * C + C := by ring
      omega
    have hqe : q = i := by omega
    rw [if_neg hr0]
    rw [← hdm, hqe]
    omega

/-- C1: for every blob of size `S` and positive maximum chunk size `C`,
`createFileChunks` returns exactly `⌈S/C⌉` chunks in order, all of size
`C` except the last, whose size is `S % C` when `S` is not an exact
multiple of `C` and `C` when it is; in particular for `S = 0` it returns
the empty sequence. -/
theorem createFileChunks_count_and_sizes (file : Blob) (C : Nat) (hC : 0 < C) :
    (createFileChunks file C).length = (file.length + C - 1) / C ∧
    (∀ i ch, (createFileChunks file C).get? i = some ch →
      ch.length =
        if i + 1 < (file.length + C - 1) / C then C
        else if file.length % C = 0 then C else file.length % C) ∧
    (file.length = 0 → createFileChunks file C = []) := by
  have hlen := createFileChunks_length file C hC
  refine ⟨hlen, ?_, ?_⟩
  · intro i ch h
    have hchlen := createFileChunks_chunk_length file C hC i ch h
    have hsome : i * C < file.length := by
      by_contra hcon
      push_neg at hcon
      rw [(createFileChunks_get?_eq_none_iff file C hC i).mpr hcon] at h
      exact absurd h (by simp)
    have hi_lt : i < (createFileChunks file C).length := by
      by_contra hcon
      push_neg at hcon
      rw [List.get?_eq_none.mpr hcon] at h
      exact absurd h (by simp)
    by_cases hmid : i + 1 < (file.length + C - 1) / C
    · rw [if_pos hmid]
      have hnext : (i + 1) * C < file.length := by
        by_contra hcon
        push_neg at hcon
        have := (createFileChunks_get?_eq_none_iff file C hC (i + 1)).mpr hcon
        have := List.get?_eq_none.mp this
        omega
      have hexp : (i + 1) * C = i * C + C := by ring
      omega
    · rw [if_neg hmid]
      have hub : file.length ≤ i * C + C := by
        have hnone : (createFileChunks file C).get? (i + 1) = none :=
          List.get?_eq_none.mpr (by omega)
        have := (createFileChunks_get?_eq_none_iff file C hC (i + 1)).mp hnone
        have hexp : (i + 1) * C = i * C + C := by ring
        omega
      have := last_chunk_size file.length C i hC hsome hub
      omega
  · intro h0
    have : (createFileChunks file C).length = 0 := by
      rw [hlen, h0]
      exact Nat.div_eq_of_lt (by omega)
    exact List.length_eq_zero.mp this

theorem createFileChunks_count_and_sizes_witness :
    0 < 2 ∧
    ((createFileChunks [1, 2, 3, 4, 5] 2).length = (([1, 2, 3, 4, 5] : Blob).length + 2 - 1) / 2 ∧
     (∀ i ch, (createFileChunks [1, 2, 3, 4, 5] 2).get? i = some ch →
       ch.length =
         if i + 1 < (([1, 2, 3, 4, 5] : Blob).length + 2 - 1) / 2 then 2
         else if ([1, 2, 3, 4, 5] : Blob).length % 2 = 0 then 2
         else ([1, 2, 3, 4, 5] : Blob).length % 2) ∧
     (([1, 2, 3, 4, 5] : Blob).length = 0 → createFileChunks [1, 2, 3, 4, 5] 2 = [])) :=
  ⟨by decide, createFileChunks_count_and_sizes [1, 2, 3, 4, 5] 2 (by decide)⟩

/-- C2: concatenating the chunks returned by `createFileChunks` in index
order reproduces the original byte sequence exactly (round-trip law). -/
theorem createFileChunks_roundtrip (file : Blob) (C : Nat) (hC : 0 < C) :
    (createFileChunks file C).flatten = file := by
  have h := chunksLoop_flatten file C hC file.length 0 (by omega)
  simpa using h

theorem createFileChunks_roundtrip_witness :
    0 < 2 ∧ (createFileChunks [1, 2, 3] 2).flatten = [1, 2, 3] :=
  ⟨by decide, createFileChunks_roundtrip [1, 2, 3] 2 (by decide)⟩

lemma chunkStep_iterate_lower (size c : Int) (hsize : 0 ≤ size) (hc : 1 ≤ c) :
    ∀ n : Nat, min ((n : Int) * c) size ≤ (chunkStep size c)^[n] 0 := by
  intro n
  induction n with
  | zero => simp
  | succ n ih =>
    rw [Function.iterate_succ_apply']
    set a := (chunkStep size c)^[n] 0 with ha
    have hstep : chunkStep size c a = min (a + c) size := rfl
    rw [hstep]
    have hexp : ((n : Int) + 1) * c = (n : Int) * c + c := by ring
    push_cast
    rw [hexp]
    have i1 : min ((n : Int) * c + c) size ≤ size := min_le_right _ _
    have i2 : min ((n : Int) * c + c) size ≤ (n : Int) * c + c := min_le_left _ _
    refine le_min ?_ i1
    rcases min_choice ((n : Int) * c) size with hm | hm <;> rw [hm] at ih <;> omega

lemma chunkStep_iterate_nonpos (size c : Int) (hc : c ≤ 0) :
    ∀ n : Nat, (chunkStep size c)^[n] 0 ≤ 0 := by
  intro n
  induction n with
  | zero => simp
  | succ n ih =>
    rw [Function.iterate_succ_apply']
    have hstep : chunkStep size c ((chunkStep size c)^[n] 0) =
        min ((chunkStep size c)^[n] 0 + c) size := rfl
    rw [hstep]
    have := min_le_left ((chunkStep size c)^[n] 0 + c) size
    omega

/-- C9: the `createFileChunks` loop terminates for every blob whenever
`maxChunkSize ≥ 1`, since each iteration strictly advances the cursor
toward `file.size`; the positivity precondition is essential, because for
`maxChunkSize ≤ 0` and a non-empty blob the cursor never advances past
zero and the loop never exits. -/
theorem chunkLoop_termination_dichotomy (size c : Int) :
    (0 ≤ size → 1 ≤ c → chunkLoopTerminates size c) ∧
    (0 < size → c ≤ 0 → ¬ chunkLoopTerminates size c) := by
  constructor
  · intro hsize hc
    refine ⟨size.toNat, ?_⟩
    unfold chunkLoopDone
    have hlow := chunkStep_iterate_lower size c hsize hc size.toNat
    have hcast : ((size.toNat : Int)) = size := Int.toNat_of_nonneg hsize
    have hmul : size * 1 ≤ size * c := by
      apply mul_le_mul_of_nonneg_left hc hsize
    rw [hcast] at hlow
    have hge : size ≤ size * c := by omega
    have : min (size * c) size = size := by omega
    omega
  · rintro hsize hc ⟨n, hn⟩
    unfold chunkLoopDone at hn
    have := chunkStep_iterate_nonpos size c hc n
    omega

theorem chunkLoop_termination_dichotomy_witness :
    ((0 : Int) ≤ 6 ∧ (1 : Int) ≤ 2 ∧ chunkLoopTerminates 6 2) ∧
    ((0 : Int) < 6 ∧ (0 : Int) ≤ 0 ∧ ¬ chunkLoopTerminates 6 0) :=
  ⟨⟨by decide, by decide, (chunkLoop_termination_dichotomy 6 2).1 (by decide) (by decide)⟩,
   ⟨by decide, by decide, (chunkLoop_termination_dichotomy 6 0).2 (by decide) (by decide)⟩⟩

/-- The batching loop of `uploadLargeFile` (src/lib/api/upload.ts): `for
(let i = 0; i < chunks.length; i += MAX_PARALLEL_UPLOADS)` takes the
batch `chunks.slice(i, i + MAX_PARALLEL_UPLOADS)`; each batch's uploads
run concurrently and the loop awaits `Promise.all` of the batch before
issuing the next one.  Embedded with explicit fuel on the iteration
count. -/
def batchesLoop (chunks : List Blob) (k : Nat) : Nat → Nat → List (List Blob)
  | _, 0 => []
  | i, fuel + 1 =>
    if i < chunks.length then
      (chunks.drop i).take k :: batchesLoop chunks k (i + k) fuel
    else []

/-- The batches issued by `uploadLargeFile` for a chunk list: batch size
`MAX_PARALLEL_UPLOADS`, one awaited `Promise.all` per batch. -/
def uploadBatches (chunks : List Blob) : List (List Blob) :=
  batchesLoop chunks MAX_PARALLEL_UPLOADS 0 chunks.length

lemma batchesLoop_get? (chunks : List Blob) (k : Nat) (hk : 0 < k) :
    ∀ fuel s j, chunks.length ≤ s + fuel →
      (batchesLoop chunks k s fuel).get? j =
        if s + j * k < chunks.length then
          some ((chunks.drop (s + j * k)).take k)
        else none := by
  intro fuel
  induction fuel with
  | zero =>
    intro s j hle
    simp only [batchesLoop, List.get?_nil]
    rw [if_neg]
    omega
  | succ fuel ih =>
    intro s j hle
    by_cases hs : s < chunks.length
    · simp only [batchesLoop, if_pos hs]
      cases j with
      | zero =>
        simp only [List.get?_cons_zero, Nat.zero_mul, Nat.add_zero]
        rw [if_pos hs]
      | succ j =>
        simp only [List.get?_cons_succ]
        rw [ih (s + k) j (by omega)]
        have harith : s + k + j * k = s + (j + 1) * k := by ring
        rw [harith]
    · simp only [batchesLoop, if_neg hs, List.get?_nil]
      rw [if_neg (by nlinarith [Nat.zero_le (j * k)])]

lemma batchesLoop_flatten (chunks : List Blob) (k : Nat) (hk : 0 < k) :
    ∀ fuel s, chunks.length ≤ s + fuel →
      (batchesLoop chunks k s fuel).flatten = chunks.drop s := by
  intro fuel
  induction fuel with
  | zero =>
    intro s hle
    rw [List.drop_eq_nil_of_le (by omega)]
    rfl
  | succ fuel ih =>
    intro s hle
    by_cases hs : s < chunks.length
    · simp only [batchesLoop, if_pos hs, List.flatten_cons]
      rw [ih (s + k) (by omega)]
      have hdrop : chunks.drop (s + k) = (chunks.drop s).drop k := by
        rw [List.drop_drop]
      rw [hdrop]
      exact List.take_append_drop _ _
    · simp only [batchesLoop, if_neg hs]
      rw [List.drop_eq_nil_of_le (by omega)]
      rfl

lemma batchesLoop_mem_length_le (chunks : List Blob) (k : Nat) :
    ∀ fuel s b, b ∈ batchesLoop chunks k s fuel → b.length ≤ k := by
  intro fuel
  induction fuel with
  | zero =>
    intro s b hb
    exact absurd hb (by simp [batchesLoop])
  | succ fuel ih =>
    intro s b hb
    by_cases hs : s < chunks.length
    · simp only [batchesLoop, if_pos hs, List.mem_cons] at hb
      rcases hb with hb | hb
      · subst hb
        exact le_trans (List.length_take_le _ _) (le_refl _)
      · exact ih (s + k) b hb
    · simp only [batchesLoop, if_neg hs] at hb
      exact absurd hb (by simp)

/-- C8: during a chunked upload, chunk uploads are issued in index order
in batches of at most `MAX_PARALLEL_UPLOADS` (3); the `j`-th awaited
batch holds exactly the consecutive chunks starting at index `3·j`, the
batches concatenate back to the full chunk list in order, and since the
orchestrator awaits `Promise.all` of one batch before issuing the next,
at most 3 chunk uploads are in flight at any instant. -/
theorem uploadBatches_bounded_parallelism (chunks : List Blob) :
    (∀ b ∈ uploadBatches chunks, b.length ≤ MAX_PARALLEL_UPLOADS) ∧
    (uploadBatches chunks).flatten = chunks ∧
    (∀ j, (uploadBatches chunks).get? j =
      if j * MAX_PARALLEL_UPLOADS < chunks.length then
        some ((chunks.drop (j * MAX_PARALLEL_UPLOADS)).take MAX_PARALLEL_UPLOADS)
      else none) := by
  refine ⟨?_, ?_, ?_⟩
  · intro b hb
    exact batchesLoop_mem_length_le chunks MAX_PARALLEL_UPLOADS chunks.length 0 b hb
  · have h := batchesLoop_flatten chunks MAX_PARALLEL_UPLOADS (by decide)
      chunks.length 0 (by omega)
    simpa using h
  · intro j
    have h := batchesLoop_get? chunks MAX_PARALLEL_UPLOADS (by decide)
      chunks.length 0 j (by omega)
    simpa using h

/-- A row of the `ratings` table: `{note_id, user_id, rating}`. -/
structure RatingRow where
  note_id : String
  user_id : String
  rating : ℚ
deriving DecidableEq

/-- The match predicate of `rateNote`'s existing-rating query:
`.eq("note_id", noteId).eq("user_id", userId)`. -/
def ratingMatches (noteId userId : String) (r : RatingRow) : Bool :=
  r.note_id == noteId && r.user_id == userId

/-- `rateNote` from src/lib/api.ts over the ratings table state: select
the rows matching `(note_id, user_id)`; if any exist, update the matching
rows' `rating`, else insert a new row. -/
def rateNote (db : List RatingRow) (noteId userId : String) (rating : ℚ) : List RatingRow :=
  let existingRating := db.filter (ratingMatches noteId userId)
  if existingRating.length > 0 then
    db.map (fun r =>
      if ratingMatches noteId userId r then { r with rating := rating } else r)
  else
    db ++ [{ note_id := noteId, user_id := userId, rating := rating }]

/-- The ratings joined to one note by `fetchNotes`' `ratings(rating)`
select. -/
def noteRatings (db : List RatingRow) (noteId : String) : List ℚ :=
  (db.filter (fun r => r.note_id == noteId)).map (fun r => r.rating)

/-- `average_rating` as computed by `fetchNotes`: the mean of the note's
ratings, or `none` when the note has no ratings. -/
def averageRating (db : List RatingRow) (noteId : String) : Option ℚ :=
  let ratings := noteRatings db noteId
  if ratings.length > 0 then some (ratings.sum / ratings.length) else none

/-- `ratings_count` as computed by `fetchNotes`. -/
def ratingsCount (db : List RatingRow) (noteId : String) : Nat :=
  (noteRatings db noteId).length

lemma filter_map_update_of_no_match (db : List RatingRow) (noteId userId : String)
    (rating : ℚ) (hno : db.filter (ratingMatches noteId userId) = []) :
    db.map (fun r =>
      if ratingMatches noteId userId r then { r with rating := rating } else r) = db := by
  induction db with
  | nil => rfl
  | cons r rs ih =>
    rw [List.filter_cons] at hno
    by_cases hr : ratingMatches noteId userId r
    · rw [if_pos hr] at hno
      exact absurd hno (by simp)
    · rw [if_neg hr] at hno
      simp only [List.map_cons, if_neg hr]
      rw [ih hno]

/-- C5: on a database with no rating rows for note `n`, rating twice with
the same anonymous user id updates rather than inserts, leaving exactly
one stored row for `(n, u)` holding the latest value; rating with two
different user ids yields two rows, after which `fetchNotes` reports an
`average_rating` equal to the arithmetic mean of the two stored ratings
and a `ratings_count` of 2. -/
theorem rateNote_upsert_and_average (db : List RatingRow) (n u u1 u2 : String)
    (r1 r2 : ℚ)
    (hfresh : db.filter (fun r => r.note_id == n) = [])
    (hne : u1 ≠ u2) :
    (rateNote (rateNote db n u r1) n u r2).filter (ratingMatches n u) =
      [{ note_id := n, user_id := u, rating := r2 }] ∧
    ratingsCount (rateNote (rateNote db n u1 r1) n u2 r2) n = 2 ∧
    averageRating (rateNote (rateNote db n u1 r1) n u2 r2) n = some ((r1 + r2) / 2) := by
  have hnou : ∀ u' : String, db.filter (ratingMatches n u') = [] := by
    intro u'
    rw [List.filter_eq_nil_iff] at hfresh ⊢
    intro r hr
    have hn := hfresh r hr
    unfold ratingMatches
    simp only [Bool.and_eq_true, beq_iff_eq, not_and]
    intro hcon
    exact absurd (by simp [hcon]) hn
  have hins : ∀ (u' : String) (r' : ℚ),
      rateNote db n u' r' = db ++ [{ note_id := n, user_id := u', rating := r' }] := by
    intro u' r'
    unfold rateNote
    rw [hnou u']
    simp
  have hmatch_row : ∀ r' : ℚ,
      ratingMatches n u { note_id := n, user_id := u, rating := r' } = true := by
    intro r'
    simp [ratingMatches]
  have hdb2a : rateNote (db ++ [{ note_id := n, user_id := u, rating := r1 }]) n u r2 =
      db ++ [{ note_id := n, user_id := u, rating := r2 }] := by
    unfold rateNote
    rw [List.filter_append, hnou u]
    simp only [List.nil_append, List.filter_cons, hmatch_row r1, if_pos, List.filter_nil]
    rw [if_pos (by simp)]
    rw [List.map_append, filter_map_update_of_no_match db n u r2 (hnou u)]
    simp [hmatch_row r1]
  have hm2 : ratingMatches n u2 { note_id := n, user_id := u1, rating := r1 } = false := by
    unfold ratingMatches
    simp [hne]
  have hdb2b : rateNote (db ++ [{ note_id := n, user_id := u1, rating := r1 }]) n u2 r2 =
      db ++ [{ note_id := n, user_id := u1, rating := r1 },
             { note_id := n, user_id := u2, rating := r2 }] := by
    unfold rateNote
    rw [List.filter_append, hnou u2]
    simp [List.filter_cons, hm2]
  have hnr : noteRatings (db ++ [{ note_id := n, user_id := u1, rating := r1 },
      { note_id := n, user_id := u2, rating := r2 }]) n = [r1, r2] := by
    unfold noteRatings
    rw [List.filter_append, hfresh]
    simp
  refine ⟨?_, ?_, ?_⟩
  · rw [hins u r1, hdb2a, List.filter_append, hnou u]
    simp [hmatch_row r2]
  · rw [hins u1 r1, hdb2b]
    unfold ratingsCount
    rw [hnr]
    rfl
  · rw [hins u1 r1, hdb2b]
    unfold averageRating
    rw [hnr]
    norm_num

theorem rateNote_upsert_and_average_witness :
    (([] : List RatingRow).filter (fun r => r.note_id == "n1") = [] ∧ "u1" ≠ "u2") ∧
    ((rateNote (rateNote [] "n1" "u0" 3) "n1" "u0" 5).filter (ratingMatches "n1" "u0") =
       [{ note_id := "n1", user_id := "u0", rating := 5 }] ∧
     ratingsCount (rateNote (rateNote [] "n1" "u1" 4) "n1" "u2" 5) "n1" = 2 ∧
     averageRating (rateNote (rateNote [] "n1" "u1" 4) "n1" "u2" 5) "n1" =
       some ((4 + 5) / 2)) :=
  ⟨⟨by decide, by decide⟩,
   rateNote_upsert_and_average [] "n1" "u0" "u1" "u2" 4 5 (by decide) (by decide)⟩

/-- JS `a || b` on strings: the empty string is falsy. -/
def jsOr (s dflt : String) : String :=
  if s = "" then dflt else s

/-- `getStorageUrl` from src/lib/api/helpers.ts. -/
def getStorageUrl : String :=
  "https://qxmmsuakpqgcfhmngmjb.supabase.co/storage/v1"

/-- The fields of a row inserted into the `notes` table (the
`uploader_id` column, always null, is omitted). -/
structure NoteInsert where
  title : String
  description : String
  file_url : String
  file_type : String
  file_size : String
  file_name : String
deriving DecidableEq

/-- An attempted external call of the note repository: object-storage
uploads/removals and `notes`-table row operations. -/
inductive StorageAction where
  | uploadObject (path : String)
  | removeObject (path : String)
  | insertNote (row : NoteInsert)
  | deleteNoteRow (id : String)
deriving DecidableEq

/-- Whether an action is a storage-object removal. -/
def StorageAction.isRemoveObject : StorageAction → Bool
  | .removeObject _ => true
  | _ => false

/-- A metadata view of a JS `File`: its name, MIME type and bytes
(`size` is `bytes.length`). -/
structure FileMeta where
  name : String
  type : String
  bytes : Blob

/-- A row of the `notes` table as used by `deleteNote` (only the fields
the function reads: `id` and `file_url`). -/
structure NoteRow where
  id : String
  file_url : String
deriving DecidableEq

/-- The storage path `deleteNote` derives from a note's `file_url`: the
last two `/`-separated segments joined by `/` (out-of-range JS indexing
is embedded as the empty string). -/
def deleteNotePath (note : NoteRow) : String :=
  let urlParts := note.file_url.splitOn "/"
  urlParts.getD (urlParts.length - 2) "" ++ "/" ++ urlParts.getD (urlParts.length - 1) ""

/-- `deleteNote` from src/lib/api.ts: remove the storage object first,
throwing on failure; only then delete the note's row (which cascades to
ratings).  `storageErr` and `dbErr` are the outcomes of the two external
calls; the result is the attempted actions, the notes table afterwards,
and the thrown error if any. -/
def deleteNote (note : NoteRow) (notes : List NoteRow)
    (storageErr dbErr : Option String) :
    List StorageAction × List NoteRow × Option String :=
  let filePath := deleteNotePath note
  match storageErr with
  | some e => ([.removeObject filePath], notes, some e)
  | none =>
    match dbErr with
    | some e => ([.removeObject filePath, .deleteNoteRow note.id], notes, some e)
    | none => ([.removeObject filePath, .deleteNoteRow note.id],
               notes.filter (fun r => r.id ≠ note.id), none)

/-- C6: `deleteNote` removes the stored object first and then the
database record; if the object deletion fails it throws, the record
deletion is never attempted, and the note's row remains unchanged. -/
theorem deleteNote_object_first_row_preserved (note : NoteRow) (notes : List NoteRow)
    (e : String) (dbErr : Option String) :
    (deleteNote note notes none dbErr).1 =
      [.removeObject (deleteNotePath note), .deleteNoteRow note.id] ∧
    (deleteNote note notes (some e) dbErr).1 = [.removeObject (deleteNotePath note)] ∧
    (deleteNote note notes (some e) dbErr).2.1 = notes ∧
    (deleteNote note notes (some e) dbErr).2.2 = some e := by
  refine ⟨?_, rfl, rfl, rfl⟩
  cases dbErr <;> rfl

/-- `uploadNote` from src/lib/api.ts.  The storage upload phase (direct,
or via the 5MB-part `uploadLargeFile` when `file.size > 10MB`) is
represented by its outcome `uploadErr`; the record insertion and its
compensation follow the source: on `insertError` the code removes
`[filePath]` from storage and then rethrows the insertion error. -/
def uploadNoteApi (title description : String) (file : FileMeta) (now : Nat)
    (pub : String → String) (fmtSize : Nat → String)
    (uploadErr insertErr : Option String) :
    List StorageAction × Option String :=
  let fileName := toString now ++ "_" ++ file.name
  let filePath := "anonymous/" ++ fileName
  match uploadErr with
  | some e => ([.uploadObject filePath], some e)
  | none =>
    let record : NoteInsert := {
      title := title
      description := description
      file_url := pub filePath
      file_type := jsOr file.type "unknown"
      file_size := fmtSize file.bytes.length
      file_name := file.name }
    match insertErr with
    | some e => ([.uploadObject filePath, .insertNote record, .removeObject filePath], some e)
    | none => ([.uploadObject filePath, .insertNote record], none)

/-- `createChunkedFileRecord` from src/lib/chunkUploader.ts: the notes
row inserted for a chunked upload, tagging the chunk set in the title. -/
def chunkedFileRecord (fileName fileUrl uploadId : String) (totalChunks : Nat)
    (fileType fileSize : String) : NoteInsert :=
  { title := "[chunked:" ++ uploadId ++ "] " ++ fileName
    description := "Chunked file upload (" ++ toString totalChunks ++
      " chunks). Upload ID: " ++ uploadId
    file_name := fileName
    file_url := fileUrl
    file_type := jsOr fileType "application/octet-stream"
    file_size := fileSize }

/-- `uploadNote` from src/lib/api/upload.ts.  Oracles give the outcomes
of the external calls: `chunkErr` for the chunk-upload batches (on a
chunk failure the error propagates; the chunk uploads issued up to the
abort are represented by the full index-ordered list), `metadataErr` for
the metadata object upload, `uploadErr` for the direct upload, and
`insertErr` for the notes insert.  `uploadId` stands for the generated
`upload_{Date.now()}_{random}` identifier, `enc` for
`encodeURIComponent`, `pub` for `getFileUrl` and `fmtSize` for
`formatFileSize` (a float-formatting display helper). -/
def uploadNoteUpTs (title description : String) (file : FileMeta)
    (now : Nat) (uploadId : String) (enc pub : String → String)
    (fmtSize : Nat → String)
    (chunkErr metadataErr uploadErr insertErr : Option String) :
    List StorageAction × Option String :=
  let folderName := "anonymous"
  if MAX_CHUNK_SIZE < file.bytes.length then
    let chunks := createFileChunks file.bytes
    let chunkActions := (List.range chunks.length).map
      (fun k => StorageAction.uploadObject
        (folderName ++ "/" ++ uploadId ++ "_chunk_" ++ toString k))
    match chunkErr with
    | some e => (chunkActions, some e)
    | none =>
      let metadataAction := StorageAction.uploadObject ("metadata/" ++ uploadId)
      match metadataErr with
      | some e => (chunkActions ++ [metadataAction], some e)
      | none =>
        let record := chunkedFileRecord file.name
          (getStorageUrl ++ "/object/notes/chunked/" ++ uploadId ++ "/" ++ enc file.name)
          uploadId chunks.length file.type (fmtSize file.bytes.length)
        match insertErr with
        | some e => (chunkActions ++ [metadataAction, .insertNote record], some e)
        | none => (chunkActions ++ [metadataAction, .insertNote record], none)
  else
    let fileName := toString now ++ "_" ++ file.name
    let filePath := folderName ++ "/" ++ fileName
    match uploadErr with
    | some e => ([.uploadObject filePath], some e)
    | none =>
      let record : NoteInsert := {
        title := title
        description := description
        file_url := pub filePath
        file_type := jsOr file.type "application/octet-stream"
        file_size := fmtSize file.bytes.length
        file_name := file.name }
      match insertErr with
      | some e => ([.uploadObject filePath, .insertNote record], some e)
      | none => ([.uploadObject filePath, .insertNote record], none)

/-- C7 (amended): in the src/lib/api.ts variant, whenever the storage
upload succeeds but the note-record insertion fails, `uploadNote`
attempts to delete the freshly uploaded storage object (the same
`filePath`) after the failed insert and before rethrowing the insertion
error. -/
theorem uploadNoteApi_compensates_on_insert_failure (title description : String)
    (file : FileMeta) (now : Nat) (pub : String → String) (fmtSize : Nat → String)
    (e : String) :
    uploadNoteApi title description file now pub fmtSize none (some e) =
      ([.uploadObject ("anonymous/" ++ (toString now ++ "_" ++ file.name)),
        .insertNote
          { title := title
            description := description
            file_url := pub ("anonymous/" ++ (toString now ++ "_" ++ file.name))
            file_type := jsOr file.type "unknown"
            file_size := fmtSize file.bytes.length
            file_name := file.name },
        .removeObject ("anonymous/" ++ (toString now ++ "_" ++ file.name))], some e) :=
  rfl

/-- C7 (counterexample): the claim is false of the `uploadNote` in
src/lib/api/upload.ts — for a small file whose storage upload succeeds
and whose record insertion fails, that variant rethrows the insertion
error without attempting any storage-object removal. -/
theorem uploadNoteUpTs_no_compensation_on_insert_failure :
    (uploadNoteUpTs "t" "d" { name := "a.txt", type := "text/plain", bytes := [1] }
        0 "up1" id id (fun _ => "1 Bytes") none none none (some "db down")).2 =
      some "db down" ∧
    (uploadNoteUpTs "t" "d" { name := "a.txt", type := "text/plain", bytes := [1] }
        0 "up1" id id (fun _ => "1 Bytes") none none none (some "db down")).1.all
      (fun a => !a.isRemoveObject) = true := by
  constructor
  · rfl
  · rfl

/-- C10: for every chunked upload (`file.size > MAX_CHUNK_SIZE`), the
note record is created by `createChunkedFileRecord` with title
`[chunked:{uploadId}] {fileName}` and a generated description naming the
chunk count and upload id; the `title` and `description` arguments the
caller passed to `uploadNote` are discarded and never stored. -/
theorem uploadNoteUpTs_chunked_record_discards_args (title description : String)
    (file : FileMeta) (now : Nat) (uploadId : String) (enc pub : String → String)
    (fmtSize : Nat → String) (h : MAX_CHUNK_SIZE < file.bytes.length) :
    (∀ r, StorageAction.insertNote r ∈
        (uploadNoteUpTs title description file now uploadId enc pub fmtSize
          none none none none).1 →
      r.title = "[chunked:" ++ uploadId ++ "] " ++ file.name ∧
      r.description = "Chunked file upload (" ++
        toString (createFileChunks file.bytes MAX_CHUNK_SIZE).length ++
        " chunks). Upload ID: " ++ uploadId) ∧
    (∀ title' description',
      uploadNoteUpTs title' description' file now uploadId enc pub fmtSize
        none none none none =
      uploadNoteUpTs title description file now uploadId enc pub fmtSize
        none none none none) := by
  constructor
  · intro r hr
    simp only [uploadNoteUpTs, if_pos h, List.mem_append, List.mem_map,
      List.mem_range, List.mem_cons, List.mem_singleton] at hr
    rcases hr with ⟨k, _, hk⟩ | hr | hr | hr
    · exact absurd hk (by simp)
    · exact absurd hr (by simp)
    · have hrec := (StorageAction.insertNote.injEq _ _).mp hr
      subst hrec
      exact ⟨rfl, rfl⟩
    · exact absurd hr (by simp)
  · intro title' description'
    simp only [uploadNoteUpTs, if_pos h]

theorem uploadNoteUpTs_chunked_record_discards_args_witness :
    MAX_CHUNK_SIZE < (List.replicate (MAX_CHUNK_SIZE + 1) 0).length ∧
    ((∀ r, StorageAction.insertNote r ∈
        (uploadNoteUpTs "my title" "my description"
          { name := "big.bin", type := "", bytes := List.replicate (MAX_CHUNK_SIZE + 1) 0 }
          0 "up1" id id (fun _ => "45 MB") none none none none).1 →
      r.title = "[chunked:" ++ "up1" ++ "] " ++ "big.bin" ∧
      r.description = "Chunked file upload (" ++
        toString (createFileChunks (List.replicate (MAX_CHUNK_SIZE + 1) 0) MAX_CHUNK_SIZE).length ++
        " chunks). Upload ID: " ++ "up1") ∧
    (∀ title' description',
      uploadNoteUpTs title' description'
        { name := "big.bin", type := "", bytes := List.replicate (MAX_CHUNK_SIZE + 1) 0 }
        0 "up1" id id (fun _ => "45 MB") none none none none =
      uploadNoteUpTs "my title" "my description"
        { name := "big.bin", type := "", bytes := List.replicate (MAX_CHUNK_SIZE + 1) 0 }
        0 "up1" id id (fun _ => "45 MB") none none none none)) :=
  ⟨by rw [List.length_replicate]; omega,
   uploadNoteUpTs_chunked_record_discards_args "my title" "my description"
     { name := "big.bin", type := "", bytes := List.replicate (MAX_CHUNK_SIZE + 1) 0 }
     0 "up1" id id (fun _ => "45 MB")
     (by rw [List.length_replicate]; omega)⟩

/-- `compressFile` from chunkUploader (part_003): pipes the file's
stream through the host's GZIP `CompressionStream` and collects the
result; on failure of the underlying stream it throws a wrapped
`Compression failed: ...` error.  The platform GZIP transform is the
oracle argument `gzip`. -/
def compressFile (gzip : Except String Blob) : Except String Blob :=
  match gzip with
  | .ok compressedBlob => .ok compressedBlob
  | .error e => .error ("Compression failed: " ++ e)

/-- Modelled from the spec: the compression step of the upload pipeline.
The `uploadNote` that orchestrates compression (the api module defining
`COMPRESSION_THRESHOLD` and `MAX_FILE_SIZE`, imported by UploadForm) is
not among the sources; per the spec, when the file size exceeds the
compression threshold but is within the upper bound it attempts
`compressFile`, on success replaces the upload payload and continues
with the compressed size, and on failure falls back to the uncompressed
file with the failure swallowed (logged only).  Returns the payload and
the size the upload continues with. -/
def compressionPass (threshold upperBound : Nat) (file : Blob)
    (gzip : Except String Blob) : Blob × Nat :=
  if threshold < file.length ∧ file.length ≤ upperBound then
    match compressFile gzip with
    | .ok compressedBlob => (compressedBlob, compressedBlob.length)
    | .error _ => (file, file.length)
  else (file, file.length)

/-- C3: when the file size exceeds the compression threshold but is
within the upper bound, the pipeline attempts the GZIP pass
(`compressFile`); on success the payload is replaced and the upload
continues with the compressed size, and on compression failure the
pipeline falls back to the uncompressed file, the failure swallowed
rather than propagated. -/
theorem compressionPass_replace_or_fallback (threshold upperBound : Nat)
    (file : Blob) (gzip : Except String Blob)
    (h1 : threshold < file.length) (h2 : file.length ≤ upperBound) :
    (∀ compressedBlob, gzip = .ok compressedBlob →
      compressionPass threshold upperBound file gzip =
        (compressedBlob, compressedBlob.length)) ∧
    (∀ e, gzip = .error e →
      compressionPass threshold upperBound file gzip = (file, file.length)) := by
  constructor <;> intro x hx <;> subst hx <;>
    simp [compressionPass, compressFile, if_pos (And.intro h1 h2)]

theorem compressionPass_replace_or_fallback_witness :
    (1 < ([1, 2, 3] : Blob).length ∧ ([1, 2, 3] : Blob).length ≤ 5) ∧
    ((∀ compressedBlob, (Except.ok [9] : Except String Blob) = .ok compressedBlob →
        compressionPass 1 5 [1, 2, 3] (.ok [9]) =
          (compressedBlob, compressedBlob.length)) ∧
     (∀ e, (Except.ok [9] : Except String Blob) = .error e →
        compressionPass 1 5 [1, 2, 3] (.ok [9]) = ([1, 2, 3], ([1, 2, 3] : Blob).length))) :=
  ⟨⟨by decide, by decide⟩,
   compressionPass_replace_or_fallback 1 5 [1, 2, 3] (.ok [9]) (by decide) (by decide)⟩

/-- An XHR progress event observed by one chunk's upload during
`uploadLargeFile` (src/lib/api/upload.ts): `batchStart` is the batch
loop variable `i` at the time, `offset` the chunk's position within the
batch (`chunkIndex = i + offset`), and `loaded`/`total` the event's byte
counts. -/
structure ChunkProgressEvent where
  batchStart : Nat
  offset : Nat
  loaded : ℚ
  total : ℚ

/-- The chunk sizes as the rationals JS numeric code computes with. -/
def chunkSizes (chunks : List Blob) : List ℚ :=
  chunks.map (fun c => (c.length : ℚ))

/-- `totalUploaded` as recomputed on each progress event:
`chunks.slice(0, i).reduce((sum, c) => sum + c.size, 0) +
loaded * (chunk.size / total)`. -/
def totalUploadedAt (chunks : List Blob) (e : ChunkProgressEvent) : ℚ :=
  ((chunkSizes chunks).take e.batchStart).sum +
    e.loaded * (((chunkSizes chunks).getD (e.batchStart + e.offset) 0) / e.total)

/-- One progress event through `uploadLargeFile`'s whole-percent gate:
`currentProgress = Math.floor((totalUploaded / totalSize) * 100)` is
compared against `lastReportedProgress` and a report is issued only on a
strict increase.  State: `(lastReportedProgress, reported values)`. -/
def progressStep (chunks : List Blob) (totalSize : ℚ) :
    (ℤ × List ℚ) → ChunkProgressEvent → (ℤ × List ℚ) :=
  fun st e =>
    let totalUploaded := totalUploadedAt chunks e
    let currentProgress : ℤ := ⌊totalUploaded / totalSize * 100⌋
    if st.1 < currentProgress then (currentProgress, st.2 ++ [totalUploaded])
    else st

/-- The `loaded` values reported to `onProgress` over a chunked upload
driven through `uploadNote`: the initial `onProgress(0, file.size)`, the
gated reports of `uploadLargeFile`, and the forced final report —
`onProgress(totalSize, totalSize)` on success, `onProgress(file.size,
file.size)` from the catch block on failure; in both cases the value is
`file.size`, i.e. exactly 100% with `loaded = total`. -/
def reportedSequence (file : Blob) (events : List ChunkProgressEvent) : List ℚ :=
  let chunks := createFileChunks file
  let totalSize : ℚ := (file.length : ℚ)
  0 :: (events.foldl (progressStep chunks totalSize) (0, [])).2 ++ [totalSize]

/-- Well-formedness of a progress event: its chunk exists, the offset is
within the batch, and the XHR guarantees `0 ≤ loaded ≤ total` with a
positive `total`. -/
def ValidEvent (chunks : List Blob) (e : ChunkProgressEvent) : Prop :=
  e.batchStart + e.offset < chunks.length ∧
  e.offset < MAX_PARALLEL_UPLOADS ∧
  0 ≤ e.loaded ∧ e.loaded ≤ e.total ∧ 0 < e.total

instance (chunks : List Blob) (e : ChunkProgressEvent) :
    Decidable (ValidEvent chunks e) := by
  unfold ValidEvent
  infer_instance

lemma chunkSizes_nonneg (chunks : List Blob) : ∀ x ∈ chunkSizes chunks, 0 ≤ x := by
  intro x hx
  unfold chunkSizes at hx
  rcases List.mem_map.mp hx with ⟨c, _, rfl⟩
  exact Nat.cast_nonneg _

lemma chunkSizes_sum (file : Blob) :
    (chunkSizes (createFileChunks file MAX_CHUNK_SIZE)).sum = (file.length : ℚ) := by
  have hflat : (createFileChunks file MAX_CHUNK_SIZE).flatten = file := by
    have h := chunksLoop_flatten file MAX_CHUNK_SIZE
      (by norm_num [MAX_CHUNK_SIZE]) file.length 0 (by omega)
    simpa using h
  unfold chunkSizes
  rw [show (fun c : Blob => (c.length : ℚ)) = (fun n : ℕ => (n : ℚ)) ∘ List.length
    from rfl, ← List.map_map, ← Nat.cast_list_sum]
  rw [Nat.cast_inj.mpr]
  rw [← List.length_flatten, hflat]

lemma sum_take_le_sum_take (l : List ℚ) (hpos : ∀ x ∈ l, 0 ≤ x) (i m : Nat)
    (him : i ≤ m) : (l.take i).sum ≤ (l.take m).sum := by
  have hsub : List.Sublist (l.take i) (l.take m) := by
    have : l.take i = (l.take m).take i := by
      rw [List.take_take]
      congr 1
      omega
    rw [this]
    exact List.take_sublist _ _
  exact hsub.sum_le_sum (fun x hx => hpos x (List.mem_of_mem_take hx))

lemma take_sum_add_getD_le (l : List ℚ) (hpos : ∀ x ∈ l, 0 ≤ x) (i m : Nat)
    (him : i ≤ m) (hm : m < l.length) :
    (l.take i).sum + l.getD m 0 ≤ l.sum := by
  have h1 : (l.take (m + 1)).sum = (l.take m).sum + l[m] := List.sum_take_succ l m hm
  have h2 : (l.take (m + 1)).sum + (l.drop (m + 1)).sum = l.sum :=
    List.sum_take_add_sum_drop l (m + 1)
  have h3 : 0 ≤ (l.drop (m + 1)).sum :=
    List.sum_nonneg (fun x hx => hpos x (List.mem_of_mem_drop hx))
  have h4 : (l.take i).sum ≤ (l.take m).sum := sum_take_le_sum_take l hpos i m him
  have h5 : l.getD m 0 = l[m] := List.getD_eq_getElem l 0 hm
  linarith

lemma totalUploadedAt_le (file : Blob) (e : ChunkProgressEvent)
    (hv : ValidEvent (createFileChunks file MAX_CHUNK_SIZE) e) :
    totalUploadedAt (createFileChunks file MAX_CHUNK_SIZE) e ≤ (file.length : ℚ) := by
  obtain ⟨hidx, _, hl0, hlt, ht0⟩ := hv
  set chunks := createFileChunks file MAX_CHUNK_SIZE with hchunks
  set l := chunkSizes chunks with hsz
  have hpos := chunkSizes_nonneg chunks
  have hlen : l.length = chunks.length := List.length_map _ _
  have hcsz0 : 0 ≤ l.getD (e.batchStart + e.offset) 0 := by
    by_cases hin : e.batchStart + e.offset < l.length
    · rw [List.getD_eq_getElem l 0 hin]
      exact hpos _ (List.getElem_mem hin)
    · rw [List.getD_eq_default l 0 (by omega)]
  have hmul : e.loaded * (l.getD (e.batchStart + e.offset) 0 / e.total) ≤
      l.getD (e.batchStart + e.offset) 0 := by
    have h1 : e.loaded * (l.getD (e.batchStart + e.offset) 0 / e.total) ≤
        e.total * (l.getD (e.batchStart + e.offset) 0 / e.total) :=
      mul_le_mul_of_nonneg_right hlt (div_nonneg hcsz0 (le_of_lt ht0))
    have h2 : e.total * (l.getD (e.batchStart + e.offset) 0 / e.total) =
        l.getD (e.batchStart + e.offset) 0 := by
      rw [mul_comm, div_mul_cancel₀ _ (ne_of_gt ht0)]
    linarith
  have hbound : (l.take e.batchStart).sum + l.getD (e.batchStart + e.offset) 0 ≤ l.sum :=
    take_sum_add_getD_le l hpos e.batchStart (e.batchStart + e.offset)
      (by omega) (by omega)
  have hsum : l.sum = (file.length : ℚ) := chunkSizes_sum file
  unfold totalUploadedAt
  linarith

/-- Invariant of the whole-percent progress gate: the reported values,
preceded by the initial zero report, form a non-decreasing chain; each
reported value's floored percentage is at most `lastReportedProgress`,
itself non-negative; and every reported value is at most `totalSize`. -/
def ProgInv (T : ℚ) (st : ℤ × List ℚ) : Prop :=
  List.Chain' (· ≤ ·) ((0 : ℚ) :: st.2) ∧ 0 ≤ st.1 ∧
  (∀ v ∈ (0 : ℚ) :: st.2, ⌊v / T * 100⌋ ≤ st.1) ∧
  (∀ v ∈ (0 : ℚ) :: st.2, v ≤ T)

lemma floor_pct_lt (T a b : ℚ) (hT : 0 < T)
    (h : ⌊a / T * 100⌋ < ⌊b / T * 100⌋) : a < b := by
  have h1 : a / T * 100 < b / T * 100 := by
    have ha := Int.lt_floor_add_one (a / T * 100)
    have hb := Int.floor_le (b / T * 100)
    have hc : (⌊a / T * 100⌋ : ℚ) + 1 ≤ (⌊b / T * 100⌋ : ℚ) := by
      exact_mod_cast Int.add_one_le_of_lt h
    linarith
  have h2 : a / T < b / T :=
    (mul_lt_mul_right (by norm_num : (0 : ℚ) < 100)).mp h1
  exact (div_lt_div_iff_of_pos_right hT).mp h2

lemma progressStep_inv (chunks : List Blob) (T : ℚ) (hT : 0 < T)
    (st : ℤ × List ℚ) (e : ChunkProgressEvent)
    (htu : totalUploadedAt chunks e ≤ T) (hinv : ProgInv T st) :
    ProgInv T (progressStep chunks T st e) := by
  obtain ⟨hchain, hlr0, hfl, hle⟩ := hinv
  unfold progressStep
  by_cases hgate : st.1 < ⌊totalUploadedAt chunks e / T * 100⌋
  · rw [if_pos hgate]
    refine ⟨?_, by omega, ?_, ?_⟩
    · rw [show (0 : ℚ) :: (st.2 ++ [totalUploadedAt chunks e]) =
        ((0 : ℚ) :: st.2) ++ [totalUploadedAt chunks e] from rfl]
      rw [List.chain'_append]
      refine ⟨hchain, List.chain'_singleton _, ?_⟩
      intro x hx y hy
      have hy' : totalUploadedAt chunks e = y := by simpa using hy
      subst hy'
      have hxmem : x ∈ (0 : ℚ) :: st.2 := by
        rcases List.mem_getLast?_eq_getLast hx with ⟨hne, rfl⟩
        exact List.getLast_mem hne
      exact le_of_lt (floor_pct_lt T x _ hT (lt_of_le_of_lt (hfl x hxmem) hgate))
    · intro v hv
      rcases List.mem_cons.mp hv with hv0 | hv'
      · exact le_of_lt (lt_of_le_of_lt (hfl v (by simp [hv0])) hgate)
      · rcases List.mem_append.mp hv' with hvin | hvtu
        · exact le_of_lt (lt_of_le_of_lt (hfl v (List.mem_cons_of_mem _ hvin)) hgate)
        · have : v = totalUploadedAt chunks e := by simpa using hvtu
          subst this
          exact le_refl _
    · intro v hv
      rcases List.mem_cons.mp hv with hv0 | hv'
      · exact hle v (by simp [hv0])
      · rcases List.mem_append.mp hv' with hvin | hvtu
        · exact hle v (List.mem_cons_of_mem _ hvin)
        · have : v = totalUploadedAt chunks e := by simpa using hvtu
          subst this
          exact htu
  · rw [if_neg hgate]
    exact ⟨hchain, hlr0, hfl, hle⟩

lemma progInv_init (T : ℚ) (hT : 0 ≤ T) : ProgInv T (0, []) := by
  refine ⟨List.chain'_singleton _, le_refl _, ?_, ?_⟩
  · intro v hv
    have hv0 : v = 0 := by simpa using hv
    subst hv0
    simp
  · intro v hv
    have hv0 : v = 0 := by simpa using hv
    subst hv0
    exact hT

lemma foldl_progressStep_inv (chunks : List Blob) (T : ℚ) (hT : 0 < T) :
    ∀ (events : List ChunkProgressEvent) (st : ℤ × List ℚ),
      (∀ e ∈ events, totalUploadedAt chunks e ≤ T) → ProgInv T st →
      ProgInv T (events.foldl (progressStep chunks T) st) := by
  intro events
  induction events with
  | nil =>
    intro st _ h
    simpa using h
  | cons e es ih =>
    intro st hval hinv
    rw [List.foldl_cons]
    exact ih _ (fun e' he' => hval e' (List.mem_cons_of_mem _ he'))
      (progressStep_inv chunks T hT st e (hval e (List.mem_cons_self _ _)) hinv)

/-- C4: for every chunked upload driven through `uploadNote` with a
progress callback, the sequence of reported progress values — the
initial zero report, the whole-percent-gated reports of
`uploadLargeFile`, and the forced final report — is monotonically
non-decreasing, and the final reported value is exactly `file.size`
(100%, with `loaded` equal to `total`) on both the success path and the
failure path. -/
theorem uploadNote_progress_monotone_reaches_100 (file : Blob)
    (events : List ChunkProgressEvent) (hfile : 0 < file.length)
    (hval : ∀ e ∈ events, ValidEvent (createFileChunks file MAX_CHUNK_SIZE) e) :
    List.Chain' (· ≤ ·) (reportedSequence file events) ∧
    (reportedSequence file events).getLast? = some ((file.length : ℚ)) := by
  have hT : (0 : ℚ) < (file.length : ℚ) := by exact_mod_cast hfile
  have hinv := foldl_progressStep_inv (createFileChunks file MAX_CHUNK_SIZE)
    ((file.length : ℚ)) hT events (0, [])
    (fun e he => totalUploadedAt_le file e (hval e he))
    (progInv_init _ (le_of_lt hT))
  obtain ⟨hchain, _, _, hle⟩ := hinv
  constructor
  · show List.Chain' (· ≤ ·)
      ((0 : ℚ) :: (events.foldl (progressStep (createFileChunks file MAX_CHUNK_SIZE)
        ((file.length : ℚ))) (0, [])).2 ++ [((file.length : ℚ))])
    rw [show (0 : ℚ) :: (events.foldl (progressStep (createFileChunks file MAX_CHUNK_SIZE)
        ((file.length : ℚ))) (0, [])).2 ++ [((file.length : ℚ))] =
      ((0 : ℚ) :: (events.foldl (progressStep (createFileChunks file MAX_CHUNK_SIZE)
        ((file.length : ℚ))) (0, [])).2) ++ [((file.length : ℚ))] from rfl]
    rw [List.chain'_append]
    refine ⟨hchain, List.chain'_singleton _, ?_⟩
    intro x hx y hy
    have hy' : ((file.length : ℚ)) = y := by simpa using hy
    subst hy'
    have hxmem : x ∈ (0 : ℚ) :: (events.foldl (progressStep
        (createFileChunks file MAX_CHUNK_SIZE) ((file.length : ℚ))) (0, [])).2 := by
      rcases List.mem_getLast?_eq_getLast hx with ⟨hne, rfl⟩
      exact List.getLast_mem hne
    exact hle x hxmem
  · show ((0 : ℚ) :: (events.foldl (progressStep (createFileChunks file MAX_CHUNK_SIZE)
        ((file.length : ℚ))) (0, [])).2 ++ [((file.length : ℚ))]).getLast? =
      some ((file.length : ℚ))
    rw [show (0 : ℚ) :: (events.foldl (progressStep (createFileChunks file MAX_CHUNK_SIZE)
        ((file.length : ℚ))) (0, [])).2 ++ [((file.length : ℚ))] =
      ((0 : ℚ) :: (events.foldl (progressStep (createFileChunks file MAX_CHUNK_SIZE)
        ((file.length : ℚ))) (0, [])).2) ++ [((file.length : ℚ))] from rfl]
    exact List.getLast?_concat _

theorem uploadNote_progress_monotone_reaches_100_witness :
    0 < ([7] : Blob).length ∧
    (∀ e ∈ [ChunkProgressEvent.mk 0 0 1 2],
      ValidEvent (createFileChunks [7] MAX_CHUNK_SIZE) e) ∧
    (List.Chain' (· ≤ ·) (reportedSequence [7] [ChunkProgressEvent.mk 0 0 1 2]) ∧
     (reportedSequence [7] [ChunkProgressEvent.mk 0 0 1 2]).getLast? =
       some ((([7] : Blob).length : ℚ))) :=
  ⟨by decide, by decide,
   uploadNote_progress_monotone_reaches_100 [7] [ChunkProgressEvent.mk 0 0 1 2]
     (by decide) (by decide)⟩
